import Mathlib

/-!
Verification of the Prosodylab-Aligner pipeline driver (`align.py`).

The Python source is shallowly embedded: each pure computation of the
script becomes a Lean function over explicit data, the stateful
generation bookkeeping of `TrainAligner` becomes explicit state passing
over a `TState` record, and every fatal `error(...)` exit becomes an
`Except` error value.  File contents are modelled as `List Char`
(raw characters) or as lists of line strings, matching how the script
iterates over files line by line.
-/

/-- Marker string `sp` (global `sp = 'sp'` in align.py). -/
def sp : String := "sp"

/-- Marker string `sil` (global `sil = 'sil'` in align.py). -/
def sil : String := "sil"

/-! ### Sample-rate resolution (align.py `__main__`, lines 604-611) -/

/-- The supported sample rates, global `SRs` in align.py: truncated
divisors of 1e7, sorted ascending. -/
def SRs : List Nat :=
  [4000, 8000, 10000, 12500, 15625, 16000, 20000, 25000, 31250, 40000,
   50000, 62500, 78125, 80000, 100000, 125000, 156250, 200000]

/-- Python `bisect.bisect(l, x)` (right bisection) for a sorted list: the number
of elements `≤ x`, i.e. the insertion position after any equal entries. -/
def bisect (l : List Nat) (x : Nat) : Nat :=
  (l.takeWhile (fun y => y ≤ x)).length

/-- The sample-rate resolution performed at configuration time on `-s`:

```
if sr not in SRs:
    i = bisect(SRs, sr)
    if i == 0: sr = SRs[0]
    elif i == len(SRs): sr = SRs[-1]
    elif SRs[i] - sr > sr - SRs[i - 1]: sr = SRs[i]
    else: sr = SRs[i]
```

Both branches of the final comparison assign `SRs[i]`, exactly as in the
source. -/
def resolveSR (sr : Nat) : Nat :=
  if sr ∈ SRs then sr
  else
    let i := bisect SRs sr
    if i = 0 then SRs.head!
    else if i = SRs.length then SRs.getLast!
    else if (SRs.get! i : Int) - (sr : Int) > (sr : Int) - (SRs.get! (i - 1) : Int)
         then SRs.get! i
    else SRs.get! i

/-- C1: sample-rate resolution.  The exact-match and clamping cases
behave as claimed (`4000 → 4000`, `3000 → 4000`, `999999 → 200000`), but
for a request strictly between two supported rates the code does NOT
select the nearest neighbor: `4001` is resolved to the upper neighbor
`8000` although the lower neighbor `4000` is strictly nearer (both
branches of the source comparison assign `SRs[i]`). -/
theorem resolveSR_failing_input :
    resolveSR 4000 = 4000 ∧ resolveSR 3000 = 4000 ∧
    resolveSR 999999 = 200000 ∧
    resolveSR 4001 = 8000 ∧ ((4001 : Int) - 4000 < 8000 - 4001) := by
  refine ⟨?_, ?_, ?_, ?_, ?_⟩ <;> decide

/-! ### Corpus validation (`Aligner._lists`, align.py lines 200-226) -/

/-- The fatal `error(...)` exits of the pipeline, named after the spec's
error taxonomy.  The payload of the paired-data and vocabulary errors is
the list of lines written to the corresponding diagnostic file
(`unpaired.txt` / `outofdict.txt`). -/
inductive PipelineError where
  | missingInput : PipelineError
  | unpairedData (diagnostic : List String) : PipelineError
  | outOfVocabulary (diagnostic : List String) : PipelineError
  deriving DecidableEq

/-- Embedding of `Aligner._lists`.  The corpus directory is modelled by the stems the
two globs return: `wavStems` are the stems of the `*.wav` files and
`labStems` the stems of the `*.lab` files, so `os.path.exists(stem +
ext)` is membership of `stem` in the respective glob list.  Following
the source: fail with the no-`.wav`-files error when the wav glob is
empty; otherwise collect, for each `.lab` without a `.wav`, the expected
`.wav` path, then for each `.wav` without a `.lab`, the expected `.lab`
path; if any, write them to the diagnostic sink and fail; otherwise
return `(wav_list, lab_list)`. -/
def lists (wavStems labStems : List String) :
    Except PipelineError (List String × List String) :=
  let wav_list := wavStems.map (fun s => s ++ ".wav")
  let lab_list := labStems.map (fun s => s ++ ".lab")
  if wav_list.length < 1 then .error .missingInput
  else
    let unpaired_list :=
      (labStems.filter (fun s => s ∉ wavStems)).map (fun s => s ++ ".wav") ++
      (wavStems.filter (fun s => s ∉ labStems)).map (fun s => s ++ ".lab")
    if unpaired_list.isEmpty then .ok (wav_list, lab_list)
    else .error (.unpairedData unpaired_list)

/-- Unfolding of `lists` with its `let`s zeta-reduced. -/
theorem lists_def (W L : List String) :
    lists W L =
      if (W.map (fun s => s ++ ".wav")).length < 1 then .error .missingInput
      else if ((L.filter (fun s => s ∉ W)).map (fun s => s ++ ".wav") ++
          (W.filter (fun s => s ∉ L)).map (fun s => s ++ ".lab")).isEmpty then
        .ok (W.map (fun s => s ++ ".wav"), L.map (fun s => s ++ ".lab"))
      else .error (.unpairedData
        ((L.filter (fun s => s ∉ W)).map (fun s => s ++ ".wav") ++
         (W.filter (fun s => s ∉ L)).map (fun s => s ++ ".lab"))) := rfl

/-- C4: corpus validation fails exactly on an empty audio glob or an
unpaired stem: with zero audio files it fails with the missing-input
error; with a nonempty audio glob and any unpaired file it fails with
the unpaired-data error whose diagnostic is exactly the list of
expected-but-missing counterpart paths; when every stem has both files
it returns the two lists, of equal cardinality; and an error occurs iff
the audio glob is empty or some stem lacks its counterpart. -/
theorem lists_spec (W L : List String) (hW : W.Nodup) (hL : L.Nodup) :
    (W = [] → lists W L = .error .missingInput) ∧
    (W ≠ [] →
      (L.filter (fun s => s ∉ W)).map (fun s => s ++ ".wav") ++
        (W.filter (fun s => s ∉ L)).map (fun s => s ++ ".lab") ≠ [] →
      lists W L = .error (.unpairedData
        ((L.filter (fun s => s ∉ W)).map (fun s => s ++ ".wav") ++
         (W.filter (fun s => s ∉ L)).map (fun s => s ++ ".lab")))) ∧
    ((∀ s ∈ L, s ∈ W) → (∀ s ∈ W, s ∈ L) → W ≠ [] →
      lists W L = .ok (W.map (fun s => s ++ ".wav"), L.map (fun s => s ++ ".lab")) ∧
      (W.map (fun s => s ++ ".wav")).length = (L.map (fun s => s ++ ".lab")).length) ∧
    ((∃ e, lists W L = .error e) ↔
      (W = [] ∨ (∃ s ∈ L, s ∉ W) ∨ (∃ s ∈ W, s ∉ L))) := by
  have hlen : W ≠ [] → ¬ (W.map (fun s => s ++ ".wav")).length < 1 := by
    intro hne hcon
    rw [List.length_map] at hcon
    exact hne (List.length_eq_zero.mp (Nat.lt_one_iff.mp hcon))
  constructor
  · rintro rfl
    rfl
  constructor
  · intro hne hu
    rw [lists_def, if_neg (hlen hne), if_neg]
    simp only [List.isEmpty_iff]
    exact hu
  constructor
  · intro hLW hWL hne
    have hfl : L.filter (fun s => s ∉ W) = [] := by
      rw [List.filter_eq_nil_iff]
      intro a ha
      simpa using hLW a ha
    have hfw : W.filter (fun s => s ∉ L) = [] := by
      rw [List.filter_eq_nil_iff]
      intro a ha
      simpa using hWL a ha
    have hWlen : W.length = L.length := by
      have hfin : W.toFinset = L.toFinset := by
        ext a
        simp only [List.mem_toFinset]
        exact ⟨fun h => hWL a h, fun h => hLW a h⟩
      calc W.length = W.toFinset.card := (List.toFinset_card_of_nodup hW).symm
        _ = L.toFinset.card := by rw [hfin]
        _ = L.length := List.toFinset_card_of_nodup hL
    refine ⟨?_, by simpa using hWlen⟩
    rw [lists_def, if_neg (hlen hne), hfl, hfw]
    rfl
  · constructor
    · intro ⟨e, he⟩
      by_cases hne : W = []
      · exact Or.inl hne
      · right
        by_contra hno
        push_neg at hno
        have hfl : L.filter (fun s => s ∉ W) = [] := by
          rw [List.filter_eq_nil_iff]
          intro a ha
          simpa using hno.1 a ha
        have hfw : W.filter (fun s => s ∉ L) = [] := by
          rw [List.filter_eq_nil_iff]
          intro a ha
          simpa using hno.2 a ha
        rw [lists_def, if_neg (hlen hne), hfl, hfw] at he
        exact Except.noConfusion he
    · intro h
      by_cases hW0 : W = []
      · subst hW0
        exact ⟨.missingInput, rfl⟩
      · rcases h with hW0' | h
        · exact absurd hW0' hW0
        have hu : (L.filter (fun s => s ∉ W)).map (fun s => s ++ ".wav") ++
            (W.filter (fun s => s ∉ L)).map (fun s => s ++ ".lab") ≠ [] := by
          rcases h with ⟨s, hs, hsW⟩ | ⟨s, hs, hsL⟩
          · have hmem : s ∈ L.filter (fun s => s ∉ W) :=
              List.mem_filter.mpr ⟨hs, by simpa using hsW⟩
            exact List.ne_nil_of_mem
              (List.mem_append_left _ (List.mem_map_of_mem _ hmem))
          · have hmem : s ∈ W.filter (fun s => s ∉ L) :=
              List.mem_filter.mpr ⟨hs, by simpa using hsL⟩
            exact List.ne_nil_of_mem
              (List.mem_append_right _ (List.mem_map_of_mem _ hmem))
        refine ⟨.unpairedData
          ((L.filter (fun s => s ∉ W)).map (fun s => s ++ ".wav") ++
           (W.filter (fun s => s ∉ L)).map (fun s => s ++ ".lab")), ?_⟩
        rw [lists_def, if_neg (hlen hW0), if_neg]
        simp only [List.isEmpty_iff]
        exact hu

/-- Witness for C4 at a concrete fully-paired corpus. -/
theorem lists_spec_witness :
    lists ["a", "b"] ["a", "b"] = .ok (["a.wav", "b.wav"], ["a.lab", "b.lab"]) ∧
    (["a.wav", "b.wav"] : List String).length = (["a.lab", "b.lab"] : List String).length := by
  have h := ((lists_spec ["a", "b"] ["a", "b"] (by decide) (by decide)).2.2.1
    (by decide) (by decide) (by decide)).1
  exact ⟨by simpa using h, rfl⟩

/-! ### Dictionary resolution (`Aligner._check_dct`, align.py lines 228-272) -/

/-- Lookup in the Python dict built by `Aligner._the_dict`; later
dictionary-file entries overwrite earlier ones, so the last binding of a
word wins. -/
def dictGet (dct : List (String × List String)) (w : String) : Option (List String) :=
  (dct.reverse.find? (fun p => p.1 == w)).map Prod.snd

/-- The phone lines the inner loop of `_check_dct` writes for one
transcript, between the two `sil` markers: each in-dictionary word
appends its pronunciation phones to the accumulator; misses write
nothing to the phone-level label. -/
def labPhones (dct : List (String × List String)) (acc : List String) :
    List String → List String
  | [] => acc
  | w :: ws =>
    match dictGet dct w with
    | some prons => labPhones dct (acc ++ prons) ws
    | none => labPhones dct acc ws

/-- The phone-level label file `_check_dct` writes for one transcript:
a leading `sil` line, then the phones of the in-dictionary words, then a
trailing `sil` line. -/
def phonLab (dct : List (String × List String)) (words : List String) : List String :=
  [sil] ++ labPhones dct [] words ++ [sil]

/-- The word-level label `_check_dct` writes for one transcript: the
in-dictionary words, in transcript order. -/
def labWords (dct : List (String × List String)) (words : List String) : List String :=
  words.filter (fun w => (dictGet dct w).isSome)

/-- The update `ood[word].append(lab)` on the `defaultdict(list)`, modelled as an
insertion-ordered association list. -/
def oodAdd (ood : List (String × List String)) (w lab : String) :
    List (String × List String) :=
  if ood.any (fun p => p.1 == w) then
    ood.map (fun p => if p.1 == w then (p.1, p.2 ++ [lab]) else p)
  else ood ++ [(w, [lab])]

/-- The word loop of `_check_dct` restricted to its miss bookkeeping:
each word absent from the dictionary records the current label file. -/
def oodLab (dct : List (String × List String)) (name : String)
    (acc : List (String × List String)) : List String → List (String × List String)
  | [] => acc
  | w :: ws =>
    match dictGet dct w with
    | some _ => oodLab dct name acc ws
    | none => oodLab dct name (oodAdd acc w name) ws

/-- The outer transcript loop of `_check_dct`, accumulating misses. -/
def oodLoop (dct : List (String × List String))
    (acc : List (String × List String)) :
    List (String × List String) → List (String × List String)
  | [] => acc
  | lab :: rest => oodLoop dct (oodLab dct lab.1 acc lab.2) rest

/-- All out-of-dictionary misses of a transcript set. -/
def oodAll (dct : List (String × List String))
    (labs : List (String × List String)) : List (String × List String) :=
  oodLoop dct [] labs

/-- The diagnostic lines `_check_dct` writes to `outofdict.txt`: with
the `-m` detail flag each word with the label files that contained it,
otherwise the bare word list. -/
def outofdictLines (ood_mode : Bool) (ood : List (String × List String)) :
    List String :=
  if ood_mode then ood.map (fun p => p.1 ++ "\t" ++ String.intercalate (" ") p.2)
  else ood.map (fun p => p.1)

/-- Embedding of `Aligner._check_dct`: process every transcript (pair of label-file
name and its single line of words), producing per transcript the
phone-level label and word-level label, and accumulating misses; if any
miss occurred, write the diagnostic lines and abort with the
out-of-vocabulary error. -/
def check_dct (dct : List (String × List String))
    (labs : List (String × List String)) (ood_mode : Bool) :
    Except PipelineError (List (String × List String × List String)) :=
  let results := labs.map (fun lab => (lab.1, phonLab dct lab.2, labWords dct lab.2))
  let ood := oodAll dct labs
  if ood.isEmpty then .ok results
  else .error (.outOfVocabulary (outofdictLines ood_mode ood))

/-- Unfolding of `check_dct`. -/
theorem check_dct_def (dct labs : List (String × List String)) (ood_mode : Bool) :
    check_dct dct labs ood_mode =
      if (oodAll dct labs).isEmpty then
        .ok (labs.map (fun lab => (lab.1, phonLab dct lab.2, labWords dct lab.2)))
      else .error (.outOfVocabulary (outofdictLines ood_mode (oodAll dct labs))) := rfl

/-- The keys of `oodAdd`: those of the accumulator plus the new word. -/
theorem mem_keys_oodAdd (ood : List (String × List String)) (w lab a : String) :
    a ∈ (oodAdd ood w lab).map Prod.fst ↔ a ∈ ood.map Prod.fst ∨ a = w := by
  unfold oodAdd
  by_cases h : ood.any (fun p => p.1 == w) = true
  · rw [if_pos h, List.map_map]
    have hmap : (Prod.fst ∘ fun p : String × List String =>
        if p.1 == w then (p.1, p.2 ++ [lab]) else p) = Prod.fst := by
      funext p
      by_cases hpw : p.1 == w <;> simp [Function.comp, hpw]
    rw [hmap]
    constructor
    · exact Or.inl
    · rintro (ha | rfl)
      · exact ha
      · obtain ⟨p, hp, hpw⟩ := List.any_eq_true.mp h
        exact List.mem_map.mpr ⟨p, hp, by simpa using hpw⟩
  · rw [if_neg h, List.map_append]
    simp

/-- The keys accumulated by the per-transcript miss loop. -/
theorem mem_keys_oodLab (dct : List (String × List String)) (name a : String)
    (words : List String) (acc : List (String × List String)) :
    a ∈ (oodLab dct name acc words).map Prod.fst ↔
      a ∈ acc.map Prod.fst ∨ (dictGet dct a = none ∧ a ∈ words) := by
  induction words generalizing acc with
  | nil => simp [oodLab]
  | cons w ws ih =>
    cases hdw : dictGet dct w with
    | some prons =>
      rw [show oodLab dct name acc (w :: ws) = oodLab dct name acc ws from by
        simp [oodLab, hdw]]
      rw [ih]
      constructor
      · rintro (h | ⟨hm, hw⟩)
        · exact Or.inl h
        · exact Or.inr ⟨hm, List.mem_cons_of_mem _ hw⟩
      · rintro (h | ⟨hm, hw⟩)
        · exact Or.inl h
        · rcases List.mem_cons.mp hw with rfl | hw'
          · rw [hdw] at hm
            exact Option.noConfusion hm
          · exact Or.inr ⟨hm, hw'⟩
    | none =>
      rw [show oodLab dct name acc (w :: ws) = oodLab dct name (oodAdd acc w name) ws from by
        simp [oodLab, hdw]]
      rw [ih, mem_keys_oodAdd]
      constructor
      · rintro ((h | rfl) | ⟨hm, hw⟩)
        · exact Or.inl h
        · exact Or.inr ⟨hdw, List.mem_cons_self _ _⟩
        · exact Or.inr ⟨hm, List.mem_cons_of_mem _ hw⟩
      · rintro (h | ⟨hm, hw⟩)
        · exact Or.inl (Or.inl h)
        · rcases List.mem_cons.mp hw with rfl | hw'
          · exact Or.inl (Or.inr rfl)
          · exact Or.inr ⟨hm, hw'⟩

/-- The keys accumulated over all transcripts. -/
theorem mem_keys_oodLoop (dct : List (String × List String)) (a : String)
    (labs acc : List (String × List String)) :
    a ∈ (oodLoop dct acc labs).map Prod.fst ↔
      a ∈ acc.map Prod.fst ∨ (dictGet dct a = none ∧ ∃ lab ∈ labs, a ∈ lab.2) := by
  induction labs generalizing acc with
  | nil => simp [oodLoop]
  | cons lab rest ih =>
    rw [show oodLoop dct acc (lab :: rest) = oodLoop dct (oodLab dct lab.1 acc lab.2) rest
      from rfl]
    rw [ih, mem_keys_oodLab]
    constructor
    · rintro ((h | ⟨hm, hw⟩) | ⟨hm, l, hl, hw⟩)
      · exact Or.inl h
      · exact Or.inr ⟨hm, lab, List.mem_cons_self _ _, hw⟩
      · exact Or.inr ⟨hm, l, List.mem_cons_of_mem _ hl, hw⟩
    · rintro (h | ⟨hm, l, hl, hw⟩)
      · exact Or.inl (Or.inl h)
      · rcases List.mem_cons.mp hl with rfl | hl'
        · exact Or.inl (Or.inr ⟨hm, hw⟩)
        · exact Or.inr ⟨hm, l, hl', hw⟩

/-- A word appears among the recorded misses iff it is absent from the
dictionary and occurs in some transcript. -/
theorem mem_keys_oodAll (dct labs : List (String × List String)) (a : String) :
    a ∈ (oodAll dct labs).map Prod.fst ↔
      (dictGet dct a = none ∧ ∃ lab ∈ labs, a ∈ lab.2) := by
  unfold oodAll
  rw [mem_keys_oodLoop]
  simp

/-- No miss is recorded iff every transcript word is a dictionary key. -/
theorem oodAll_eq_nil_iff (dct labs : List (String × List String)) :
    oodAll dct labs = [] ↔ ∀ lab ∈ labs, ∀ w ∈ lab.2, (dictGet dct w).isSome := by
  constructor
  · intro h lab hlab w hw
    by_contra hmiss
    rw [Option.not_isSome_iff_eq_none] at hmiss
    have hk : w ∈ (oodAll dct labs).map Prod.fst :=
      (mem_keys_oodAll dct labs w).mpr ⟨hmiss, lab, hlab, hw⟩
    rw [h] at hk
    cases hk
  · intro h
    rw [List.eq_nil_iff_forall_not_mem]
    intro p hp
    have hk : p.1 ∈ (oodAll dct labs).map Prod.fst := List.mem_map_of_mem _ hp
    rw [mem_keys_oodAll] at hk
    obtain ⟨hmiss, lab, hlab, hw⟩ := hk
    have := h lab hlab p.1 hw
    rw [hmiss] at this
    simp at this

/-- C5: dictionary resolution fails exactly when some transcript word is
absent from the dictionary: it succeeds iff every word of every
transcript is a dictionary key; on success the miss collection is empty
and the per-transcript labels are returned; on any miss it fails with
the out-of-vocabulary error carrying the diagnostic lines (bare words,
or word-to-transcripts mapping under the detail flag); and the recorded
miss words are exactly the absent words occurring in some transcript. -/
theorem check_dct_spec (dct labs : List (String × List String)) (ood_mode : Bool) :
    ((∃ r, check_dct dct labs ood_mode = .ok r) ↔
      ∀ lab ∈ labs, ∀ w ∈ lab.2, (dictGet dct w).isSome) ∧
    ((∀ lab ∈ labs, ∀ w ∈ lab.2, (dictGet dct w).isSome) →
      oodAll dct labs = [] ∧
      check_dct dct labs ood_mode =
        .ok (labs.map (fun lab => (lab.1, phonLab dct lab.2, labWords dct lab.2)))) ∧
    ((∃ lab ∈ labs, ∃ w ∈ lab.2, dictGet dct w = none) →
      check_dct dct labs ood_mode =
        .error (.outOfVocabulary (outofdictLines ood_mode (oodAll dct labs)))) ∧
    (∀ w, w ∈ (oodAll dct labs).map Prod.fst ↔
      (dictGet dct w = none ∧ ∃ lab ∈ labs, w ∈ lab.2)) := by
  have hiff := oodAll_eq_nil_iff dct labs
  refine ⟨?_, ?_, ?_, fun w => mem_keys_oodAll dct labs w⟩
  · constructor
    · rintro ⟨r, hr⟩
      by_contra hno
      have hne : oodAll dct labs ≠ [] := fun h => hno (hiff.mp h)
      rw [check_dct_def, if_neg (by simpa [List.isEmpty_iff] using hne)] at hr
      exact Except.noConfusion hr
    · intro h
      refine ⟨labs.map (fun lab => (lab.1, phonLab dct lab.2, labWords dct lab.2)), ?_⟩
      rw [check_dct_def, if_pos (by simp [List.isEmpty_iff, hiff.mpr h])]
  · intro h
    have h0 : oodAll dct labs = [] := hiff.mpr h
    refine ⟨h0, ?_⟩
    rw [check_dct_def, if_pos (by simp [List.isEmpty_iff, h0])]
  · rintro ⟨lab, hlab, w, hw, hmiss⟩
    have hne : oodAll dct labs ≠ [] := by
      intro h0
      have := hiff.mp h0 lab hlab w hw
      rw [hmiss] at this
      simp at this
    rw [check_dct_def, if_neg (by simpa [List.isEmpty_iff] using hne)]

/-- Witness for C5 at a concrete dictionary and transcript set: the word
`zzz` is out of vocabulary, so resolution fails with the bare word list
as diagnostic. -/
theorem check_dct_spec_witness :
    check_dct [("the", ["DH", "AH0"])] [("a.lab", ["the", "zzz"])] false =
      .error (.outOfVocabulary ["zzz"]) := by
  have h := (check_dct_spec [("the", ["DH", "AH0"])] [("a.lab", ["the", "zzz"])] false).2.2.1
    ⟨("a.lab", ["the", "zzz"]), by decide, "zzz", by decide, by decide⟩
  rw [h]
  rfl

/-- Closed form of the phone lines written between the `sil` markers:
the pronunciations of the in-dictionary words, concatenated in
transcript order. -/
theorem labPhones_eq (dct : List (String × List String)) (words acc : List String) :
    labPhones dct acc words =
      acc ++ (words.filter (fun w => (dictGet dct w).isSome)).flatMap
        (fun w => (dictGet dct w).getD []) := by
  induction words generalizing acc with
  | nil => simp [labPhones]
  | cons w ws ih =>
    cases hdw : dictGet dct w with
    | some prons =>
      rw [show labPhones dct acc (w :: ws) = labPhones dct (acc ++ prons) ws from by
        simp [labPhones, hdw]]
      rw [ih]
      simp [List.filter_cons, hdw, List.append_assoc]
    | none =>
      rw [show labPhones dct acc (w :: ws) = labPhones dct acc ws from by
        simp [labPhones, hdw]]
      rw [ih]
      simp [List.filter_cons, hdw]

/-- C9: every derived phone-level label is silence-bounded: exactly one
leading `sil` line, then the concatenated pronunciations of the
transcript's in-vocabulary words in transcript order, then exactly one
trailing `sil` line. -/
theorem phonLab_spec (dct : List (String × List String)) (words : List String) :
    phonLab dct words =
      [sil] ++ ((words.filter (fun w => (dictGet dct w).isSome)).flatMap
        (fun w => (dictGet dct w).getD [])) ++ [sil] ∧
    (phonLab dct words).head? = some sil ∧
    (phonLab dct words).getLast? = some sil := by
  refine ⟨?_, rfl, ?_⟩
  · unfold phonLab
    rw [labPhones_eq]
    simp
  · unfold phonLab
    exact List.getLast?_concat _

/-! ### Alignment scoring (`Aligner.align_and_score`, align.py lines 363-380,
and the `HVite_score` regexp of line 73) -/

/-- Strip an expected literal segment of the pattern from the input. -/
def stripLit : List Char → List Char → Option (List Char)
  | [], s => some s
  | _ :: _, [] => none
  | p :: ps, c :: cs => if c = p then stripLit ps cs else none

/-- Match `\d+` greedily: the maximal (nonempty) digit run and the rest. -/
def takeDigits (s : List Char) : Option (List Char × List Char) :=
  let d := s.takeWhile Char.isDigit
  if d.isEmpty then none else some (d, s.drop d.length)

/-- Match the tail `==  \[\d+ frames\] (-\d+\.\d+)` of the `HVite_score`
pattern at the start of `s`, returning the captured group.  Every greedy
`\d+` here is followed by a non-digit, so the maximal digit span is the
only candidate and no backtracking arises inside the tail. -/
def matchTail (s : List Char) : Option (List Char) := do
  let s ← stripLit ("==  [".toList) s
  let (_, s) ← takeDigits s
  let s ← stripLit (" frames] ".toList) s
  let s ← stripLit ("-".toList) s
  let (d1, s) ← takeDigits s
  let s ← stripLit (".".toList) s
  let (d2, _) ← takeDigits s
  pure ('-' :: (d1 ++ '.' :: d2))

/-- The greedy `.+` of the pattern: try the prefix of length `k`, then
`k - 1`, …, down to 1, longest first, requiring a newline-free prefix
(`.` does not match a newline). -/
def hviteMatchFrom : Nat → List Char → Option (List Char)
  | 0, _ => none
  | k + 1, s =>
    if (s.take (k + 1)).all (fun c => c ≠ '\n') then
      match matchTail (s.drop (k + 1)) with
      | some cap => some cap
      | none => hviteMatchFrom k s
    else hviteMatchFrom k s

/-- Embedding of `HVite_score.match(line)`: anchored match of the trace-score pattern
`.+==  \[\d+ frames\] (-\d+\.\d+)`, returning capture group 1. -/
def hviteMatch (line : String) : Option String :=
  (hviteMatchFrom line.length line.toList).map (fun cs => String.mk cs)

/-- The trace-consuming loop of `align_and_score`: for each stdout line
matching the score pattern, write the row `(self.wav_list[i], capture)`
and increment `i`.  The Bool records whether the loop completed:
`false` means the unchecked indexing `self.wav_list[i]` went out of
bounds at some matching line; the rows written before that point are
still recorded, as they were already written to the score file. -/
def scoreLoop (wav_list : List String) (i : Nat) :
    List String → List (String × String) × Bool
  | [] => ([], true)
  | l :: ls =>
    match hviteMatch l with
    | none => scoreLoop wav_list i ls
    | some cap =>
      match wav_list[i]? with
      | none => ([], false)
      | some w =>
        ((w, cap) :: (scoreLoop wav_list (i + 1) ls).1, (scoreLoop wav_list (i + 1) ls).2)

/-- Embedding of `Aligner.align_and_score`, restricted to its score-file output:
the rows written, and whether the loop ran to completion. -/
def align_and_score (wav_list lines : List String) : List (String × String) × Bool :=
  scoreLoop wav_list 0 lines

/-- Closed form of the score loop from index `i`. -/
theorem scoreLoop_eq (wav : List String) (lines : List String) (i : Nat) :
    scoreLoop wav i lines =
      ((wav.drop i).zip (lines.filterMap hviteMatch),
       decide ((lines.filterMap hviteMatch).length ≤ wav.length - i)) := by
  induction lines generalizing i with
  | nil => simp [scoreLoop]
  | cons l ls ih =>
    cases hml : hviteMatch l with
    | none =>
      rw [show scoreLoop wav i (l :: ls) = scoreLoop wav i ls from by
        simp [scoreLoop, hml]]
      rw [ih]
      simp [List.filterMap_cons, hml]
    | some cap =>
      cases hw : wav[i]? with
      | none =>
        rw [show scoreLoop wav i (l :: ls) = ([], false) from by
          simp [scoreLoop, hml, hw]]
        have hlen : wav.length ≤ i := List.getElem?_eq_none_iff.mp hw
        have hdrop : wav.drop i = [] := List.drop_eq_nil_of_le hlen
        have hsub : wav.length - i = 0 := Nat.sub_eq_zero_of_le hlen
        simp [hdrop, hsub, List.filterMap_cons, hml]
      | some w =>
        rw [show scoreLoop wav i (l :: ls) =
            ((w, cap) :: (scoreLoop wav (i + 1) ls).1, (scoreLoop wav (i + 1) ls).2) from by
          simp [scoreLoop, hml, hw]]
        rw [ih]
        obtain ⟨hi, hwi⟩ := List.getElem?_eq_some.mp hw
        rw [List.drop_eq_getElem_cons hi, hwi]
        simp only [List.filterMap_cons, hml, List.zip_cons_cons, List.length_cons,
          Prod.mk.injEq]
        refine ⟨trivial, ?_⟩
        rw [decide_eq_decide]
        omega

/-- C2: the rows of the score file are exactly the validated audio list
zipped, in order, with the captures of the matching trace lines: the
k-th matching line yields the k-th row, pairing the k-th audio entry
with the extracted log-likelihood.  (`zip` truncates at the shorter
list, which also covers a run aborted by the unchecked indexing.) -/
theorem align_and_score_rows (wav lines : List String) :
    (align_and_score wav lines).1 = wav.zip (lines.filterMap hviteMatch) ∧
    (∀ (k : Nat) (p : String × String), ((align_and_score wav lines).1)[k]? = some p ↔
      (wav[k]? = some p.1 ∧ (lines.filterMap hviteMatch)[k]? = some p.2)) := by
  have h : (align_and_score wav lines).1 = wav.zip (lines.filterMap hviteMatch) := by
    unfold align_and_score
    rw [scoreLoop_eq]
    simp
  exact ⟨h, fun k p => by rw [h]; exact List.getElem?_zip_eq_some⟩

/-- C10: the loop completes without an out-of-bounds access iff the
number of trace lines matching the score pattern is at most the number
of validated audio files; and on a concrete trace stream with one
matching score line but an empty audio list, the indexing goes out of
bounds. -/
theorem align_and_score_safety :
    (∀ wav lines : List String,
      ((align_and_score wav lines).2 = true ↔
        (lines.filterMap hviteMatch).length ≤ wav.length)) ∧
    (align_and_score [] ["x==  [5 frames] -12.3"]).2 = false ∧
    (["x==  [5 frames] -12.3"].filterMap hviteMatch).length = 1 := by
  refine ⟨?_, ?_, ?_⟩
  · intro wav lines
    unfold align_and_score
    rw [scoreLoop_eq]
    simp
  · rfl
  · rfl

/-! ### Generation bookkeeping (`TrainAligner._subclass_specific_init`
lines 404-414, `_nxt_dir` lines 487-498, `train` lines 500-511) -/

/-- Python `str(n)` for a natural number: decimal digits. -/
def natToDigits (n : Nat) : List Char :=
  if _h : n < 10 then [Char.ofNat (48 + n)]
  else natToDigits (n / 10) ++ [Char.ofNat (48 + n % 10)]
decreasing_by exact Nat.div_lt_self (by omega) (by omega)

/-- The numeric value of a decimal digit string (reading left to right). -/
def digitsVal (ds : List Char) : Nat :=
  ds.foldl (fun a c => 10 * a + (c.toNat - 48)) 0

/-- Python `str.zfill(w)`: pad on the left with `'0'` to width `w`. -/
def zfill (w : Nat) (s : List Char) : List Char :=
  List.replicate (w - s.length) '0' ++ s

/-- The HMM workspace subdirectory (`self.hmm_dir`), relative to the
temporary directory. -/
def hmm_dir : List Char := "HMM".toList

/-- The path `os.path.join(self.hmm_dir, str(n).zfill(3))`: the directory of
generation `n`. -/
def dirName (n : Nat) : List Char := hmm_dir ++ '/' :: zfill 3 (natToDigits n)

theorem char_toNat_digit (d : Nat) (h : d < 10) : (Char.ofNat (48 + d)).toNat = 48 + d := by
  interval_cases d <;> decide

theorem digitsVal_append_digit (xs : List Char) (c : Char) :
    digitsVal (xs ++ [c]) = 10 * digitsVal xs + (c.toNat - 48) := by
  unfold digitsVal
  rw [List.foldl_append]
  rfl

theorem digitsVal_natToDigits (n : Nat) : digitsVal (natToDigits n) = n := by
  induction n using Nat.strong_induction_on with
  | _ n ih =>
    by_cases h : n < 10
    · unfold natToDigits
      rw [dif_pos h]
      show 10 * 0 + ((Char.ofNat (48 + n)).toNat - 48) = n
      rw [char_toNat_digit n h]
      omega
    · unfold natToDigits
      rw [dif_neg h]
      rw [digitsVal_append_digit, ih (n / 10) (Nat.div_lt_self (by omega) (by omega)),
        char_toNat_digit (n % 10) (Nat.mod_lt _ (by omega))]
      omega

theorem digitsVal_replicate_zero (k : Nat) (ds : List Char) :
    digitsVal (List.replicate k '0' ++ ds) = digitsVal ds := by
  induction k with
  | zero => rfl
  | succ k ih =>
    rw [List.replicate_succ, List.cons_append]
    show (List.replicate k '0' ++ ds).foldl (fun a c => 10 * a + (c.toNat - 48))
      (10 * 0 + ('0'.toNat - 48)) = digitsVal ds
    have : (10 * 0 + ('0'.toNat - 48)) = 0 := by decide
    rw [this]
    exact ih

theorem digitsVal_zfill_natToDigits (w n : Nat) :
    digitsVal (zfill w (natToDigits n)) = n := by
  unfold zfill
  rw [digitsVal_replicate_zero, digitsVal_natToDigits]

/-- Distinct generation ordinals give distinct directory names. -/
theorem dirName_injective : Function.Injective dirName := by
  intro a b h
  unfold dirName at h
  have h2 := List.append_cancel_left h
  injection h2 with _ h3
  have h4 := congrArg digitsVal h3
  rwa [digitsVal_zfill_natToDigits, digitsVal_zfill_natToDigits] at h4

/-- The generation-bookkeeping state of `TrainAligner`: the generation
counter `self.n`, the `self.cur_dir` and `self.nxt_dir` paths, the
directories created by `os.mkdir` so far (in creation order), and the
HERest invocations performed so far, each logged as the pair of the
generation directory read (`-H` macro/hmmdefs source) and the directory
written (`-M` destination). -/
structure TState where
  n : Nat
  cur_dir : List Char
  nxt_dir : List Char
  made : List (List Char)
  calls : List (List Char × List Char)

/-- The generation-relevant tail of `_subclass_specific_init`:
`self.n = 0`; `cur_dir` is generation directory 0, created; then
`self.n =+ 1` — which assigns `+1`, i.e. `1`, to `self.n`, as in the
source —; `nxt_dir` is generation directory 1, created. -/
def initTState : TState :=
  { n := 1
    cur_dir := dirName 0
    nxt_dir := dirName 1
    made := [dirName 0, dirName 1]
    calls := [] }

/-- Embedding of `TrainAligner._nxt_dir`: pass `nxt_dir` to `cur_dir`, increment the
counter, compute the new zero-padded path, create it. -/
def nxtDir (s : TState) : TState :=
  { s with
    cur_dir := s.nxt_dir
    n := s.n + 1
    nxt_dir := dirName (s.n + 1)
    made := s.made ++ [dirName (s.n + 1)] }

/-- The state after `k` calls of `_nxt_dir` following initialization. -/
def genState (k : Nat) : TState := Nat.iterate nxtDir k initTState

/-- Closed form of the generation state. -/
theorem genState_eq (k : Nat) :
    genState k =
      { n := k + 1
        cur_dir := dirName k
        nxt_dir := dirName (k + 1)
        made := (List.range (k + 2)).map dirName
        calls := [] } := by
  induction k with
  | zero => rfl
  | succ k ih =>
    unfold genState at ih ⊢
    rw [Function.iterate_succ_apply', ih]
    simp [nxtDir, List.range_succ]

/-- C6: each advance makes the previous next-generation directory
current, increments the generation ordinal by exactly 1 (so the ordinal
after `k` advances is `k + 1`, strictly monotonic), computes the new
zero-padded next-generation path, creates exactly that one new
directory, and the directories created across the run are pairwise
distinct — none is ever reused. -/
theorem nxtDir_spec (k : Nat) :
    (genState (k + 1)).n = (genState k).n + 1 ∧
    (genState k).n = k + 1 ∧
    (genState (k + 1)).cur_dir = (genState k).nxt_dir ∧
    (genState (k + 1)).nxt_dir = hmm_dir ++ '/' :: zfill 3 (natToDigits (k + 2)) ∧
    (genState (k + 1)).made = (genState k).made ++ [(genState (k + 1)).nxt_dir] ∧
    (genState (k + 1)).made.Nodup := by
  rw [genState_eq k, genState_eq (k + 1)]
  refine ⟨rfl, rfl, rfl, rfl, ?_, ?_⟩
  · show (List.range (k + 2 + 1)).map dirName = _
    rw [List.range_succ, List.map_append]
    rfl
  · exact (List.nodup_range _).map dirName_injective

/-- The HERest invocation of one `train` loop iteration: the external
re-estimation call reads the current generation (`-H` macros/hmmdefs)
and writes the next generation's directory (`-M`); the state is
otherwise unchanged. -/
def herest (s : TState) : TState :=
  { s with calls := s.calls ++ [(s.cur_dir, s.nxt_dir)] }

/-- One iteration of the `train` loop body: `call(['HERest', ...])`
then `self._nxt_dir()`. -/
def trainStep (s : TState) : TState := nxtDir (herest s)

/-- Embedding of `TrainAligner.train(niter)`: `niter` sequential loop iterations. -/
def train (niter : Nat) (s : TState) : TState := Nat.iterate trainStep niter s

/-- The calls performed by `train` are the previous ones followed by one
per round, round `k` reading the then-current and writing the
then-next generation directory. -/
theorem train_calls (n : Nat) (s : TState) :
    (train n s).calls = s.calls ++
      (List.range n).map (fun k => ((train k s).cur_dir, (train k s).nxt_dir)) := by
  induction n with
  | zero => simp [train]
  | succ n ih =>
    unfold train at ih ⊢
    rw [Function.iterate_succ_apply']
    rw [show (trainStep (trainStep^[n] s)).calls =
        (trainStep^[n] s).calls ++
          [((trainStep^[n] s).cur_dir, (trainStep^[n] s).nxt_dir)] from rfl]
    rw [ih, List.range_succ, List.map_append, List.append_assoc]
    rfl

/-- C7: `train n` performs exactly `n` external re-estimation
invocations and exactly `n` advances (generation counter and created
directories each grow by exactly `n`), for any starting state — in
particular regardless of corpus size, which the loop never consults;
the rounds are logged in order, round `k` reading the generation
directory that is current after `k` rounds, and each round's source is
the previous round's destination. -/
theorem train_spec (n : Nat) (s : TState) :
    (train n s).calls.length = s.calls.length + n ∧
    (train n s).n = s.n + n ∧
    (train n s).made.length = s.made.length + n ∧
    (train n s).calls = s.calls ++
      (List.range n).map (fun k => ((train k s).cur_dir, (train k s).nxt_dir)) ∧
    (∀ k, (train (k + 1) s).cur_dir = (train k s).nxt_dir) := by
  refine ⟨?_, ?_, ?_, train_calls n s, ?_⟩
  · rw [train_calls]
    simp
  · induction n with
    | zero => rfl
    | succ n ih =>
      unfold train at ih ⊢
      rw [Function.iterate_succ_apply']
      show (trainStep^[n] s).n + 1 = s.n + (n + 1)
      omega
  · induction n with
    | zero => rfl
    | succ n ih =>
      unfold train at ih ⊢
      rw [Function.iterate_succ_apply']
      show ((trainStep^[n] s).made ++ [dirName ((trainStep^[n] s).n + 1)]).length =
        s.made.length + (n + 1)
      rw [List.length_append]
      simp at ih ⊢
      omega
  · intro k
    unfold train
    rw [Function.iterate_succ_apply']
    rfl

/-! ### Small-pause injection (`TrainAligner.small_pause`, lines 513-552) -/

/-- Split raw file contents into the lines Python file iteration yields:
each line keeps its trailing newline; a final fragment without a newline
is its own line. -/
def linesKeepNl (s : List Char) : List (List Char) :=
  s.foldr
    (fun c acc =>
      if c = '\n' then [c] :: acc
      else
        match acc with
        | [] => [[c]]
        | l :: ls => (c :: l) :: ls)
    []

/-- Consume lines up to and including the first one satisfying `p` — the
`for line in source: if …: break` idiom; everything is consumed when no
line matches. -/
def dropThrough {α : Type} (p : α → Bool) : List α → List α
  | [] => []
  | l :: ls => if p l then ls else dropThrough p ls

/-- The lines before the first one satisfying `p` — the
`for line in source: if …: break; saved.append(line)` idiom. -/
def takeBefore {α : Type} (p : α → Bool) (ls : List α) : List α :=
  ls.takeWhile (fun l => !p l)

/-- Line `'~h "{0}"\n'.format(sp)`: the short-pause model header line. -/
def spHdr : List Char := ("~h \"" ++ sp ++ "\"\n").toList

/-- Line `'~h "{0}"\n'.format(sil)`: the silence model header line. -/
def silHdr : List Char := ("~h \"" ++ sil ++ "\"\n").toList

/-- Line `'<STATE> 3\n'`: start of the silence model's middle state block. -/
def st3 : List Char := "<STATE> 3\n".toList

/-- Line `'<STATE> 4\n'`: end of the silence model's middle state block. -/
def st4 : List Char := "<STATE> 4\n".toList

/-- The topology header chunk appended for the new 3-state model. -/
def bgChunk : List Char := "<BEGINHMM>\n<NUMSTATES> 3\n<STATE> 2\n".toList

/-- Line `'<TRANSP> 3\n'`. -/
def transpHdr : List Char := "<TRANSP> 3\n".toList

/-- The fixed, non-estimated transition matrix chunk (and `<ENDHMM>`),
taken from the VoxForge tutorial per the source comment. -/
def transpBody : List Char :=
  " 0.0 1.0 0.0\n 0.0 0.9 0.1\n 0.0 0.0 0.0\n<ENDHMM>".toList

/-- The `saved` chunks `small_pause` builds while scanning the hmmdefs
lines: the `sp` header; the 3-state topology header; the lines strictly
between the first `<STATE> 3` line after the first `sil` header and the
following `<STATE> 4` line — the silence model's middle emitting state,
verbatim; then the fixed transition matrix. -/
def smallPauseSaved (L : List (List Char)) : List (List Char) :=
  let r1 := dropThrough (fun l => l = silHdr) L
  let r2 := dropThrough (fun l => l = st3) r1
  let mid := takeBefore (fun l => l = st4) r2
  [spHdr, bgChunk] ++ mid ++ [transpHdr, transpBody]

/-- Embedding of `TrainAligner.small_pause`, file-mutation part: scan the hmmdefs
contents building `saved`, seek to the end, append all saved chunks. -/
def small_pause (content : List Char) : List Char :=
  content ++ (smallPauseSaved (linesKeepNl content)).flatten

/-- The HHEd edit script `small_pause` writes (with `sp` and `sil`
substituted by `format`; doubled braces are literal). -/
def hedScript : List Char :=
  ("AT 2 4 0.2 \x7b" ++ sil ++ ".transP\x7d\n" ++
   "AT 4 2 0.2 \x7b" ++ sil ++ ".transP\x7d \n" ++
   "AT 1 3 0.3 \x7b" ++ sp ++ ".transP\x7d\n" ++
   "TI silst \x7b" ++ sil ++ ".state[3]," ++ sp ++ ".state[2]\x7d\n").toList

/-- Split a line into whitespace-separated fields. -/
def fields (s : List Char) : List (List Char) :=
  let r := s.foldr
    (fun c acc =>
      if c = ' ' ∨ c = '\n' then ([], if acc.1.isEmpty then acc.2 else acc.1 :: acc.2)
      else (c :: acc.1, acc.2))
    (([], []) : List Char × List (List Char))
  if r.1.isEmpty then r.2 else r.1 :: r.2

/-- Parse a decimal literal `\d+.\d+` as a scaled pair: the digit
value of the concatenated digits and the number of fraction digits,
denoting `n / 10 ^ e`. -/
def parseDec (s : List Char) : Option (Nat × Nat) :=
  let ip := s.takeWhile Char.isDigit
  match s.drop ip.length with
  | '.' :: frac =>
    if ip.isEmpty ∨ frac.isEmpty ∨ ¬ frac.all Char.isDigit then none
    else some (digitsVal (ip ++ frac), frac.length)
  | _ => none

/-- The exact rational value of a scaled decimal. -/
def decVal (p : Nat × Nat) : ℚ := (p.1 : ℚ) / 10 ^ p.2

/-- Parse a transition-matrix row: every field as an exact rational. -/
def transRow (l : List Char) : Option (List ℚ) :=
  ((fields l).mapM parseDec).map (List.map decVal)

/-- Extract the `<NUMSTATES>` value of a model chunk: the digits after
the first occurrence of the tag. -/
def parseNumStates (s : List Char) : Option Nat :=
  ((linesKeepNl s).find? (fun l => "<NUMSTATES> ".toList.isPrefixOf l)).map
    (fun l => digitsVal ((l.drop 12).takeWhile Char.isDigit))

theorem dropThrough_append {α : Type} (p : α → Bool) (xs : List α) (x : α) (ys : List α)
    (hxs : ∀ l ∈ xs, ¬ p l = true) (hx : p x = true) :
    dropThrough p (xs ++ x :: ys) = ys := by
  induction xs with
  | nil => simp [dropThrough, hx]
  | cons a as ih =>
    rw [List.cons_append, show dropThrough p (a :: (as ++ x :: ys)) =
      if p a then as ++ x :: ys else dropThrough p (as ++ x :: ys) from rfl]
    rw [if_neg (by simpa using hxs a (List.mem_cons_self a as))]
    exact ih (fun l hl => hxs l (List.mem_cons_of_mem _ hl))

theorem takeBefore_append {α : Type} (p : α → Bool) (xs : List α) (x : α) (ys : List α)
    (hxs : ∀ l ∈ xs, ¬ p l = true) (hx : p x = true) :
    takeBefore p (xs ++ x :: ys) = xs := by
  unfold takeBefore
  induction xs with
  | nil => simp [List.takeWhile_cons, hx]
  | cons a as ih =>
    rw [List.cons_append, List.takeWhile_cons,
      if_pos (by simpa using hxs a (List.mem_cons_self a as))]
    rw [ih (fun l hl => hxs l (List.mem_cons_of_mem _ hl))]

/-- C8: one run of the small-pause injection appends to the current
generation's hmmdefs exactly the new short-pause model: its `~h "sp"`
header, a 3-state topology (the appended chunk's `<NUMSTATES>` parses
to 3) whose single emitting state is the silence model's middle state
block copied verbatim, and the fixed transition matrix whose middle row
parses to self-loop 9/10 and exit 1/10; and the fourth line of the
state-tying edit script ties the silence model's state 3 to the
short-pause model's state 2. -/
theorem small_pause_spec (content : List Char) (P A M R : List (List Char))
    (hsplit : linesKeepNl content = P ++ [silHdr] ++ A ++ [st3] ++ M ++ [st4] ++ R)
    (hP : silHdr ∉ P) (hA : st3 ∉ A) (hM : st4 ∉ M) :
    small_pause content =
      content ++ (spHdr ++ bgChunk ++ M.flatten ++ transpHdr ++ transpBody) ∧
    parseNumStates bgChunk = some 3 ∧
    (linesKeepNl transpBody).map transRow =
      [some [0, 1, 0], some [0, 9/10, 1/10], some [0, 0, 0], none] ∧
    (linesKeepNl hedScript)[3]? =
      some ("TI silst \x7b" ++ sil ++ ".state[3]," ++ sp ++ ".state[2]\x7d\n").toList := by
  have hrows : (linesKeepNl transpBody).map transRow =
      [some [0, 1, 0], some [0, 9/10, 1/10], some [0, 0, 0], none] := by
    have hscaled : (linesKeepNl transpBody).map (fun l => (fields l).mapM parseDec) =
        [some [(0, 1), (10, 1), (0, 1)], some [(0, 1), (9, 1), (1, 1)],
         some [(0, 1), (0, 1), (0, 1)], none] := by decide
    calc (linesKeepNl transpBody).map transRow
        = ((linesKeepNl transpBody).map (fun l => (fields l).mapM parseDec)).map
            (Option.map (List.map decVal)) := by rw [List.map_map]; rfl
      _ = _ := by rw [hscaled]; norm_num [decVal]
  refine ⟨?_, by decide, hrows, by decide⟩
  have h1 : dropThrough (fun l => l = silHdr) (linesKeepNl content) =
      A ++ [st3] ++ M ++ [st4] ++ R := by
    rw [hsplit]
    rw [show P ++ [silHdr] ++ A ++ [st3] ++ M ++ [st4] ++ R =
        P ++ silHdr :: (A ++ [st3] ++ M ++ [st4] ++ R) from by
      simp [List.append_assoc]]
    exact dropThrough_append _ P silHdr _
      (fun l hl => by
        simp only [decide_eq_true_eq]
        exact fun he => hP (he ▸ hl))
      (by simp)
  have h2 : dropThrough (fun l => l = st3) (A ++ [st3] ++ M ++ [st4] ++ R) =
      M ++ [st4] ++ R := by
    rw [show A ++ [st3] ++ M ++ [st4] ++ R =
        A ++ st3 :: (M ++ [st4] ++ R) from by
      simp [List.append_assoc]]
    exact dropThrough_append _ A st3 _
      (fun l hl => by
        simp only [decide_eq_true_eq]
        exact fun he => hA (he ▸ hl))
      (by simp)
  have h3 : takeBefore (fun l => l = st4) (M ++ [st4] ++ R) = M := by
    rw [show M ++ [st4] ++ R = M ++ st4 :: R from by simp [List.append_assoc]]
    exact takeBefore_append _ M st4 R
      (fun l hl => by
        simp only [decide_eq_true_eq]
        exact fun he => hM (he ▸ hl))
      (by simp)
  unfold small_pause
  rw [show smallPauseSaved (linesKeepNl content) =
      [spHdr, bgChunk] ++
        takeBefore (fun l => l = st4)
          (dropThrough (fun l => l = st3)
            (dropThrough (fun l => l = silHdr) (linesKeepNl content))) ++
        [transpHdr, transpBody] from rfl]
  rw [h1, h2, h3]
  simp [List.flatten_append, List.append_assoc]

/-- Witness for C8 at a concrete hmmdefs content with a 5-state silence
model whose middle state block is `M1\nM2\n`. -/
theorem small_pause_spec_witness :
    small_pause ("~h \"a\"\nZ\n~h \"sil\"\n<BEGINHMM>\n<NUMSTATES> 5\n<STATE> 2\nmA\n<STATE> 3\nM1\nM2\n<STATE> 4\nmC\n<ENDHMM>\n").toList =
      ("~h \"a\"\nZ\n~h \"sil\"\n<BEGINHMM>\n<NUMSTATES> 5\n<STATE> 2\nmA\n<STATE> 3\nM1\nM2\n<STATE> 4\nmC\n<ENDHMM>\n").toList ++
        (spHdr ++ bgChunk ++ ("M1\nM2\n").toList ++ transpHdr ++ transpBody) := by
  have h := (small_pause_spec
    (("~h \"a\"\nZ\n~h \"sil\"\n<BEGINHMM>\n<NUMSTATES> 5\n<STATE> 2\nmA\n<STATE> 3\nM1\nM2\n<STATE> 4\nmC\n<ENDHMM>\n").toList)
    ["~h \"a\"\n".toList, "Z\n".toList]
    ["<BEGINHMM>\n".toList, "<NUMSTATES> 5\n".toList, "<STATE> 2\n".toList, "mA\n".toList]
    ["M1\n".toList, "M2\n".toList]
    ["mC\n".toList, "<ENDHMM>\n".toList]
    (by decide) (by decide) (by decide) (by decide)).1
  simpa using h
